import Mathlib

/-!
# vsdRiscvSoc, Week 1 bare-metal programs

A shallow embedding of three C programs of the repository:

* `Week1/MTIP/timer_interrupt.c`: polled UART console, timer interrupt handler,
  interrupt enabling;
* `Week1/endianness/main.c`: decimal printing (`uart_put_int`);
* `Week1/mutex/mutex_example.c`: LR/SC spinlock and the two "threads".

Memory-mapped registers are fields of an explicit machine state.  Values the
hardware supplies (UART status reads, the free-running counter) are oracles
stored in the state; every bus access is appended to a trace.  Machine integers
are `Nat`/`Int` with explicit reduction modulo `2^w`.
-/

namespace VsdRiscv

/-! ## Machine state of `timer_interrupt.c` -/

/-- One externally visible effect (a bus or CSR access). -/
inductive Eff where
  /-- read of `UART_READY`, with the value returned -/
  | rdStatus (v : Nat)
  /-- write of a byte to `UART_TX` -/
  | wrTx (b : Nat)
  /-- read of `MTIME`, with the value returned -/
  | rdMtime (v : Nat)
  /-- write of `MTIMECMP` -/
  | wrCmp (v : Nat)
  /-- `csrs mie, t0` with the value of `t0` -/
  | csrsMie (v : Nat)
  /-- `csrs mstatus, imm` -/
  | csrsMstatus (v : Nat)
  deriving DecidableEq, Repr

/-- Registers of the QEMU `virt` machine touched by the programs, with the two
hardware oracles.  `status k` is the byte returned by the `k`-th read of
`UART_READY`; `mtime n` is the value of the free-running counter at the `n`-th
access made by the program (`now` counts the accesses made so far). -/
structure Machine where
  status : Nat → Nat
  reads : Nat
  tx : List Nat
  mtime : Nat → Nat
  now : Nat
  mtimecmp : Nat
  t0 : Nat
  mie : Nat
  mstatus : Nat
  trace : List Eff

/-- Result of running a function that contains the polling loop of `uart_putc`:
either it returned, or the poll budget ran out while it was still waiting. -/
inductive Outcome where
  | returned (m : Machine)
  | spinning (m : Machine)

/-- The machine state an outcome stopped in. -/
def Outcome.state : Outcome → Machine
  | .returned m => m
  | .spinning m => m

/-- The bytes of a C string literal followed by its terminating NUL. -/
def cstr (s : String) : List Nat := s.data.map Char.toNat ++ [0]

/-- The test `*uart_ready & (1 << 5)` of the wait loop. -/
def txReady (v : Nat) : Bool := v &&& (1 <<< 5) != 0

/-- `uart_putc(c)`: poll `UART_READY` until bit 5 is set, then store `c` to
`UART_TX`.  The first argument bounds the number of polls. -/
def uart_putc (c : Nat) : Nat → Machine → Outcome
  | 0, m => .spinning m
  | fuel + 1, m =>
    let v := m.status m.reads
    let m1 := { m with reads := m.reads + 1, now := m.now + 1,
                       trace := m.trace ++ [Eff.rdStatus v] }
    if txReady v then
      .returned { m1 with tx := m1.tx ++ [c], now := m1.now + 1,
                          trace := m1.trace ++ [Eff.wrTx c] }
    else uart_putc c fuel m1

/-- `uart_puts(s)`: `while (*s) uart_putc(*s++)`.  The argument is the list of
bytes found in memory from `s` on (the end of the list reads as a NUL); each
call of `uart_putc` gets the poll budget `fuel`. -/
def uart_puts (fuel : Nat) : List Nat → Machine → Outcome
  | [], m => .returned m
  | c :: s, m =>
    if c = 0 then .returned m
    else
      match uart_putc c fuel m with
      | .returned m1 => uart_puts fuel s m1
      | .spinning m1 => .spinning m1

/-- The statement `*mtimecmp = *mtime + 1000000;` on `uint64_t`. -/
def program_deadline (m : Machine) : Machine :=
  let t := m.mtime m.now
  let m1 := { m with now := m.now + 1, trace := m.trace ++ [Eff.rdMtime t] }
  let v := (t + 1000000) % 2 ^ 64
  { m1 with mtimecmp := v, now := m1.now + 1, trace := m1.trace ++ [Eff.wrCmp v] }

/-- `timer_handler()`. -/
def timer_handler (fuel : Nat) (m : Machine) : Outcome :=
  match uart_puts fuel (cstr "MTIP\n") m with
  | .returned m1 => .returned (program_deadline m1)
  | .spinning m1 => .spinning m1

/-- `li t0, 0x80`. -/
def li_t0 (m : Machine) : Machine := { m with t0 := 0x80 }

/-- `csrs mie, t0`. -/
def csrs_mie_t0 (m : Machine) : Machine :=
  { m with mie := m.mie ||| m.t0, trace := m.trace ++ [Eff.csrsMie m.t0] }

/-- `csrs mstatus, 0x8`. -/
def csrs_mstatus_8 (m : Machine) : Machine :=
  { m with mstatus := m.mstatus ||| 0x8, trace := m.trace ++ [Eff.csrsMstatus 0x8] }

/-- The statements of `enable_timer_interrupt()`, in program order. -/
def enable_stmts : List (Machine → Machine) :=
  [program_deadline, li_t0, csrs_mie_t0, csrs_mstatus_8]

/-- The state after the first `k` statements of `enable_timer_interrupt()`. -/
def enable_upto (k : Nat) (m : Machine) : Machine :=
  (enable_stmts.take k).foldl (fun s f => f s) m

/-- `enable_timer_interrupt()`. -/
def enable_timer_interrupt (m : Machine) : Machine :=
  enable_upto enable_stmts.length m

/-- An idle machine whose UART is always ready and whose counter stands at `c`. -/
def machineAt (c : Nat) : Machine :=
  { status := fun _ => 0x20, reads := 0, tx := [], mtime := fun _ => c, now := 0,
    mtimecmp := 0, t0 := 0, mie := 0, mstatus := 0, trace := [] }

/-- The state after `n` further polls of `UART_READY` (none of them followed by
a store). -/
def polled (m : Machine) (n : Nat) : Machine :=
  { m with reads := m.reads + n, now := m.now + n,
           trace := m.trace ++ (List.range n).map (fun k => Eff.rdStatus (m.status (m.reads + k))) }

/-- The store `*uart_tx = c`. -/
def txStore (c : Nat) (m : Machine) : Machine :=
  { m with tx := m.tx ++ [c], now := m.now + 1, trace := m.trace ++ [Eff.wrTx c] }

/-- A device that reports ready after finitely many polls, from any point on. -/
def EventuallyReady (status : Nat → Nat) : Prop :=
  ∀ k, ∃ n, txReady (status (k + n)) = true

/-- The bytes stored to `UART_TX` according to a trace, oldest first. -/
def txWrites : List Eff → List Nat
  | [] => []
  | .wrTx b :: es => b :: txWrites es
  | _ :: es => txWrites es

/-- A caller that passes the bytes `bs` to `uart_putc`, one call per byte. -/
def uart_putc_each (fuel : Nat) : List Nat → Machine → Outcome
  | [], m => .returned m
  | b :: bs, m =>
    match uart_putc b fuel m with
    | .returned m1 => uart_putc_each fuel bs m1
    | .spinning m1 => .spinning m1

/-- The frame of the console functions: they leave the oracles and the timer and
interrupt registers alone, and only add accesses. -/
def ConsoleOnly (m m1 : Machine) : Prop :=
  m1.status = m.status ∧ m1.mtime = m.mtime ∧ m.now ≤ m1.now ∧
  m1.mtimecmp = m.mtimecmp ∧ m1.t0 = m.t0 ∧ m1.mie = m.mie ∧ m1.mstatus = m.mstatus

/-- A machine whose counter stands at 0 while `enable_timer_interrupt` runs, at
1000000 during a first handler invocation and at 2000005 during a second one
(the second trap is taken 5 ticks late). -/
def jitterMachine : Machine :=
  { machineAt 0 with
    mtime := fun n => if n < 2 then 0 else if n < 14 then 1000000 else 2000005 }

/-- A machine whose UART reports busy (0x00, then 0xDF: every bit but bit 5)
on the first two status reads and ready from the third on. -/
def slowUart : Machine :=
  { machineAt 0 with status := fun k => if k = 0 then 0x00 else if k = 1 then 0xDF else 0x20 }

/-- A machine whose UART never reports ready. -/
def deadUart : Machine :=
  { machineAt 0 with status := fun _ => 0xDF }

/-! ## `uart_put_int` of `endianness/main.c` -/

/-- The value an `int` (32-bit two's complement) takes for the integer `x`. -/
def wrap_int (x : Int) : Int := (x + 2 ^ 31) % 2 ^ 32 - 2 ^ 31

/-- Result of the digit loop of `uart_put_int`. -/
inductive Digits where
  /-- the loop ended with `i` characters stored in `buf` -/
  | done (buf : List Nat) (i : Nat)
  /-- a store `buf[i]` with `i` outside the array -/
  | overrun
  /-- the iteration budget ran out with `num > 0` -/
  | unfinished
  deriving DecidableEq, Repr

/-- `while (num > 0) { buf[i++] = '0' + (num % 10); num /= 10; }` on `int num`,
`char buf[]`, with the truncating `/` and `%` of C.  The first argument bounds
the number of iterations. -/
def digit_loop : Nat → Int → List Nat → Nat → Digits
  | 0, num, buf, i => if num > 0 then .unfinished else .done buf i
  | fuel + 1, num, buf, i =>
    if num > 0 then
      if i < buf.length then
        digit_loop fuel (num.tdiv 10) (buf.set i ((48 + num.tmod 10) % 256).toNat) (i + 1)
      else .overrun
    else .done buf i

/-- `while (i > 0) { uart_putc(buf[--i]); }`. -/
def print_loop (fuel : Nat) (buf : List Nat) : Nat → Machine → Outcome
  | 0, m => .returned m
  | i + 1, m =>
    match uart_putc (buf.getD i 0) fuel m with
    | .returned m1 => print_loop fuel buf i m1
    | .spinning m1 => .spinning m1

/-- `uart_put_int(num)`.  `buf0` is the (uninitialised) content of `char buf[12]`.
The negation `num = -num` is taken in 32-bit two's complement, as the RV32
target computes it.  `none` stands for a store outside `buf`. -/
def uart_put_int (fuel : Nat) (num : Int) (buf0 : List Nat) (m : Machine) : Option Outcome :=
  if num = 0 then some (uart_putc 48 fuel m)
  else
    let is_negative := decide (num < 0)
    let num1 := if num < 0 then wrap_int (-num) else num
    match digit_loop fuel num1 buf0 0 with
    | .overrun => none
    | .unfinished => some (.spinning m)
    | .done buf i =>
      match (if is_negative then uart_putc 45 fuel m else .returned m) with
      | .returned m1 => some (print_loop fuel buf i m1)
      | .spinning m1 => some (.spinning m1)

/-- The array `char buf[12]` before anything is stored in it. -/
def buf12 : List Nat := List.replicate 12 0

/-- Canonical decimal representation of an integer, as ASCII bytes: "0" for
zero, otherwise an optional '-' followed by the decimal digits of the absolute
value, most significant first, without leading zeros. -/
def canonical_decimal (n : Int) : List Nat :=
  if n = 0 then [48]
  else (if n < 0 then [45] else []) ++ ((Nat.digits 10 n.natAbs).reverse.map (fun d => 48 + d))

/-! ## `mutex_example.c`: the LR/SC lock and the two thread functions

`mutex_lock` is embedded twice: as a function of the answers the hardware gives
to one context (`mutex_lock`), and as the steps `lr`, `chk`, `sc`, `cond` of a
context of an interleaved system (`thread_step`), in which every step of a
context is atomic and memory is sequentially consistent. -/

/-- What the hardware answers during one iteration of the `do ... while` of
`mutex_lock`: the value `lr.w` loads, and the code `sc.w` writes to `tmp` if it
is executed (0: the store happened). -/
structure Attempt where
  lr : Nat
  sc : Nat
  deriving DecidableEq, Repr

/-- An instruction executed by `mutex_lock` on the lock word. -/
inductive LockOp where
  | lr (v : Nat)
  | sc (code : Nat)
  deriving DecidableEq, Repr

/-- The lock word as last written by this context, and the instructions it
executed on it, oldest first. -/
structure LockState where
  word : Nat
  ops : List LockOp
  deriving DecidableEq, Repr

/-- `mutex_lock(&mutex)` against the hardware answers `as`, one per iteration.
`some (r, s)` is a return with value `r`; `none` means the answers ran out with
the loop still running. -/
def mutex_lock : List Attempt → LockState → Option (Int × LockState)
  | [], _ => none
  | a :: rest, s =>
    -- lr.w tmp, (mutex)
    let s1 := { s with ops := s.ops ++ [LockOp.lr a.lr] }
    if a.lr ≠ 0 then
      -- `continue`: the condition `tmp != 0` holds, next iteration
      mutex_lock rest s1
    else
      -- sc.w tmp, 1, (mutex)
      let s2 := { word := if a.sc = 0 then 1 else s1.word, ops := s1.ops ++ [LockOp.sc a.sc] }
      if a.sc ≠ 0 then mutex_lock rest s2
      else some (0, s2)

/-- `mutex_unlock(&mutex)`: `*mutex = 0`. -/
def mutex_unlock (_word : Nat) : Nat := 0

/-- The instructions one iteration executes. -/
def attemptOps (a : Attempt) : List LockOp :=
  if a.lr ≠ 0 then [LockOp.lr a.lr] else [LockOp.lr a.lr, LockOp.sc a.sc]

/-- An iteration that acquires the lock: it loads 0 and its `sc.w` succeeds. -/
def Attempt.wins (a : Attempt) : Bool := a.lr == 0 && a.sc == 0

/-- Program points of a context that calls `thread1()` / `thread2()`. -/
inductive Pc where
  /-- outside `thread1`/`thread2` -/
  | idle
  /-- `mutex_lock`: at `lr.w` -/
  | lr
  /-- `mutex_lock`: at `if (tmp != 0) continue;` -/
  | chk (tmp : Nat)
  /-- `mutex_lock`: at `sc.w` -/
  | sc
  /-- `mutex_lock`: at `while (tmp != 0)` -/
  | cond (tmp : Nat)
  /-- at `uart_puts("Tn: Enter critical section\n")` -/
  | enter
  /-- `shared_counter++`: at the load -/
  | incRead
  /-- `shared_counter++`: at the store of `v + 1` -/
  | incWrite (v : Nat)
  /-- at `uart_puts("Tn: Counter = ")` -/
  | putsCounter
  /-- at `uart_putc('0' + shared_counter)` -/
  | putcCounter
  /-- at `uart_putc('\n')` -/
  | putcNl
  /-- `mutex_unlock`: at `*mutex = 0` -/
  | unlock
  /-- at `uart_puts("Tn: Exit critical section\n")` -/
  | leave
  deriving DecidableEq, Repr

/-- Private state of a context: program point, LR reservation on the lock word,
and which of the two thread functions it runs (`1` or `2`). -/
structure Local where
  pc : Pc
  resv : Bool
  tid : Nat
  deriving DecidableEq, Repr

/-- Acquisitions (successful `sc.w`) and releases (unlock stores), by context. -/
inductive Obs where
  | acq (i : Nat)
  | rel (i : Nat)
  deriving DecidableEq, Repr

/-- Shared memory and all contexts.  `log` lists acquisitions and releases,
newest first; `tx` the bytes sent to the console, oldest first. -/
structure World where
  mutex : Nat
  shared_counter : Nat
  ctx : Nat → Local
  tx : List Nat
  log : List Obs

/-- One scheduling decision: context `who` executes its next step.  `thread`
chooses the function called from `idle` (`1`: `thread1`, otherwise `thread2`);
`hw` is the hardware's choice at `sc.w`: `false` makes it fail even with a valid
reservation. -/
structure Event where
  who : Nat
  thread : Nat
  hw : Bool
  deriving DecidableEq, Repr

/-- Context `i` moves to `l`; no store to the lock word. -/
def World.move (s : World) (i : Nat) (l : Local) : World :=
  { s with ctx := fun j => if j = i then l else s.ctx j }

/-- Context `i` stores `v` to the lock word and moves to `pc`: every
reservation on the word is lost. -/
def World.storeMutex (s : World) (i : Nat) (v : Nat) (pc : Pc) (o : Obs) : World :=
  { s with mutex := v,
           ctx := fun j => if j = i then { s.ctx i with pc := pc, resv := false }
                           else { s.ctx j with resv := false },
           log := o :: s.log }

/-- The label printed by thread function `tid`: "T1" or "T2". -/
def label (tid : Nat) : List Nat := if tid = 1 then [84, 49] else [84, 50]

/-- The bytes of a C string literal, without the terminator. -/
def bytes (s : String) : List Nat := s.data.map Char.toNat

/-- The next step of context `i` inside `thread1()` / `thread2()`, with
`mutex_lock` and `mutex_unlock` inlined.  A console call is one step that
appends the bytes it sends (its polling loop is `uart_putc` above). -/
def thread_step (s : World) (i : Nat) (e : Event) : World :=
  let l := s.ctx i
  match l.pc with
  | .idle => s.move i { l with pc := .lr, tid := if e.thread = 1 then 1 else 2 }
  | .lr => s.move i { l with pc := .chk s.mutex, resv := true }
  | .chk tmp => if tmp ≠ 0 then s.move i { l with pc := .cond tmp }
                else s.move i { l with pc := .sc }
  | .sc => if l.resv && e.hw then s.storeMutex i 1 (.cond 0) (.acq i)
           else s.move i { l with pc := .cond 1, resv := false }
  | .cond tmp => if tmp ≠ 0 then s.move i { l with pc := .lr }
                 else s.move i { l with pc := .enter }
  | .enter => { s.move i { l with pc := .incRead } with
                tx := s.tx ++ label l.tid ++ bytes ": Enter critical section\n" }
  | .incRead => s.move i { l with pc := .incWrite s.shared_counter }
  | .incWrite v => { s.move i { l with pc := .putsCounter } with
                     shared_counter := (v + 1) % 2 ^ 32 }
  | .putsCounter => { s.move i { l with pc := .putcCounter } with
                      tx := s.tx ++ label l.tid ++ bytes ": Counter = " }
  | .putcCounter => { s.move i { l with pc := .putcNl } with
                      tx := s.tx ++ [(48 + s.shared_counter) % 256] }
  | .putcNl => { s.move i { l with pc := .unlock } with tx := s.tx ++ [10] }
  | .unlock => s.storeMutex i (mutex_unlock s.mutex) .leave (.rel i)
  | .leave => { s.move i { l with pc := .idle } with
               tx := s.tx ++ label l.tid ++ bytes ": Exit critical section\n" }

/-- One step of a system of `N` contexts (`0 .. N-1`). -/
def step (N : Nat) (s : World) (e : Event) : World :=
  if e.who < N then thread_step s e.who e else s

/-- The state after a schedule, starting from `s`. -/
def run (N : Nat) (s : World) (es : List Event) : World :=
  es.foldl (step N) s

/-- Initial memory: `shared_counter = 0`, `mutex = 0`, every context idle. -/
def World.init : World :=
  { mutex := 0, shared_counter := 0, ctx := fun _ => { pc := .idle, resv := false, tid := 0 },
    tx := [], log := [] }

/-- A context holds the lock from its successful `sc.w` to its unlock store. -/
def holds : Pc → Bool
  | .cond 0 => true
  | .enter => true
  | .incRead => true
  | .incWrite _ => true
  | .putsCounter => true
  | .putcCounter => true
  | .putcNl => true
  | .unlock => true
  | _ => false

/-- Acquisitions and releases alternate, starting with an acquisition, and
each release is by the context of the acquisition before it (`log` is newest
first). -/
def alternates : List Obs → Bool
  | [] => true
  | [.acq _] => true
  | .acq _ :: .rel j :: rest => alternates (.rel j :: rest)
  | .rel i :: .acq j :: rest => i == j && alternates (.acq j :: rest)
  | _ => false

/-- Number of acquisitions (critical-section entries) in a log. -/
def entries : List Obs → Nat
  | [] => 0
  | .acq _ :: rest => entries rest + 1
  | .rel _ :: rest => entries rest

/-- Number of releases in a log. -/
def releases : List Obs → Nat
  | [] => 0
  | .acq _ :: rest => releases rest
  | .rel _ :: rest => releases rest + 1

/-- The thirteen steps of one call of thread function `tid` by context `i`
when nothing interferes: the call, `lr.w`, the test, `sc.w`, the loop condition,
the seven steps of the critical section up to and including the unlock store,
and the closing message. -/
def callThread (i tid : Nat) : List Event :=
  List.replicate 13 { who := i, thread := tid, hw := true }

/-- An uninterrupted call of `thread1()` by context `i`. -/
def thread1 (i : Nat) : List Event := callThread i 1

/-- An uninterrupted call of `thread2()` by context `i`. -/
def thread2 (i : Nat) : List Event := callThread i 2

/-- The calls of `main`, `thread1(); thread2(); thread1(); thread2();`, made by
context 0. -/
def mainSchedule : List Event :=
  thread1 0 ++ thread2 0 ++ thread1 0 ++ thread2 0

/-- The context whose acquisition is the newest entry of the log, if any. -/
def owner : List Obs → Option Nat
  | .acq i :: _ => some i
  | _ => none

/-- Program points of the critical section after the store of `shared_counter++`. -/
def bumped : Pc → Bool
  | .putsCounter => true
  | .putcCounter => true
  | .putcNl => true
  | .unlock => true
  | _ => false

/-- Invariant of the interleaved system. -/
structure Inv (s : World) : Prop where
  owner_iff : ∀ i, holds (s.ctx i).pc = true ↔ owner s.log = some i
  mutex_val : s.mutex = if (owner s.log).isSome then 1 else 0
  resv_sc : ∀ i, (s.ctx i).resv = true → (s.ctx i).pc = .sc → s.mutex = 0
  resv_chk : ∀ i t, (s.ctx i).resv = true → (s.ctx i).pc = .chk t → s.mutex = t
  alt : alternates s.log = true
  count : entries s.log = releases s.log + (if (owner s.log).isSome then 1 else 0)
  counter : ∀ i, owner s.log = some i →
    s.shared_counter = (releases s.log + (if bumped (s.ctx i).pc then 1 else 0)) % 2 ^ 32
  counter_free : owner s.log = none → s.shared_counter = releases s.log % 2 ^ 32
  pending : ∀ i v, (s.ctx i).pc = .incWrite v → v = s.shared_counter

/-- Two contexts race for the free lock: both load 0 and pass the test, context 0
stores first, and the `sc.w` of context 1 then fails although the hardware would
let it succeed, because its reservation is gone. -/
def raceSchedule : List Event :=
  [⟨0, 1, true⟩, ⟨1, 2, true⟩, ⟨0, 1, true⟩, ⟨1, 2, true⟩, ⟨0, 1, true⟩, ⟨1, 2, true⟩,
   ⟨0, 1, true⟩, ⟨1, 2, true⟩]

/-! ## The console (`uart_putc`, `uart_puts`) and the timer -/

theorem polled_zero (m : Machine) : polled m 0 = m := by
  simp [polled]

theorem polled_succ (m : Machine) (n : Nat) :
    polled { m with reads := m.reads + 1, now := m.now + 1,
                    trace := m.trace ++ [Eff.rdStatus (m.status m.reads)] } n
      = polled m (n + 1) := by
  simp only [polled, Machine.mk.injEq, true_and]
  refine ⟨by omega, by omega, ?_⟩
  rw [List.range_succ_eq_map]
  simp [List.map_map, Function.comp_def, Nat.add_assoc, Nat.add_comm 1]

theorem uart_putc_returns (c : Nat) :
    ∀ (n fuel : Nat) (m : Machine),
      (∀ k, k < n → txReady (m.status (m.reads + k)) = false) →
      txReady (m.status (m.reads + n)) = true → n < fuel →
      uart_putc c fuel m = .returned (txStore c (polled m (n + 1))) := by
  intro n
  induction n with
  | zero =>
    intro fuel m _ hr hf
    obtain ⟨f, rfl⟩ : ∃ f, fuel = f + 1 := ⟨fuel - 1, by omega⟩
    simp only [Nat.add_zero] at hr
    simp only [uart_putc, hr, if_true]
    rw [← polled_succ, polled_zero]
    rfl
  | succ n ih =>
    intro fuel m hc hr hf
    obtain ⟨f, rfl⟩ : ∃ f, fuel = f + 1 := ⟨fuel - 1, by omega⟩
    have h0 : txReady (m.status m.reads) = false := by simpa using hc 0 (by omega)
    simp only [uart_putc, h0]
    rw [← polled_succ m (n + 1)]
    apply ih
    · intro k hk
      have := hc (k + 1) (by omega)
      simpa [Nat.add_assoc, Nat.add_comm 1] using this
    · simpa [Nat.add_assoc, Nat.add_comm 1] using hr
    · omega

theorem uart_putc_spins (c : Nat) :
    ∀ (fuel : Nat) (m : Machine),
      (∀ k, k < fuel → txReady (m.status (m.reads + k)) = false) →
      uart_putc c fuel m = .spinning (polled m fuel) := by
  intro fuel
  induction fuel with
  | zero => intro m _; simp [uart_putc, polled_zero]
  | succ f ih =>
    intro m hc
    have h0 : txReady (m.status m.reads) = false := by simpa using hc 0 (by omega)
    simp only [uart_putc, h0]
    rw [← polled_succ m f]
    apply ih
    intro k hk
    have := hc (k + 1) (by omega)
    simpa [Nat.add_assoc, Nat.add_comm 1] using this

theorem txWrites_append (xs ys : List Eff) :
    txWrites (xs ++ ys) = txWrites xs ++ txWrites ys := by
  induction xs with
  | nil => rfl
  | cons e es ih => cases e <;> simp [txWrites, ih]

theorem txWrites_polls (f : Nat → Nat) (l : List Nat) :
    txWrites (l.map (fun k => Eff.rdStatus (f k))) = [] := by
  induction l with
  | nil => rfl
  | cons a l ih => simpa [txWrites] using ih

/-- What a returning `uart_putc` leaves behind, for a device that becomes ready. -/
theorem uart_putc_ready (c : Nat) (m : Machine) (h : EventuallyReady m.status) :
    ∃ n, ∀ fuel, n < fuel → uart_putc c fuel m = .returned (txStore c (polled m (n + 1))) := by
  classical
  have hex := h m.reads
  refine ⟨Nat.find hex, fun fuel hf => ?_⟩
  apply uart_putc_returns c _ fuel m _ (Nat.find_spec hex) hf
  intro k hk
  have := Nat.find_min hex hk
  simpa using this

theorem txStore_polled_tx (c : Nat) (m : Machine) (n : Nat) :
    (txStore c (polled m n)).tx = m.tx ++ [c] := rfl

theorem txStore_polled_writes (c : Nat) (m : Machine) (n : Nat) :
    txWrites (txStore c (polled m n)).trace = txWrites m.trace ++ [c] := by
  simp [txStore, polled, txWrites_append, txWrites_polls, txWrites]

theorem uart_putc_each_ready :
    ∀ (bs : List Nat) (m : Machine), EventuallyReady m.status →
      ∃ F m1, (∀ fuel, F ≤ fuel → uart_putc_each fuel bs m = .returned m1) ∧
        m1.status = m.status ∧ m1.tx = m.tx ++ bs ∧
        txWrites m1.trace = txWrites m.trace ++ bs := by
  intro bs
  induction bs with
  | nil => intro m _; exact ⟨0, m, fun _ _ => rfl, rfl, by simp, by simp⟩
  | cons b bs ih =>
    intro m h
    obtain ⟨n, hn⟩ := uart_putc_ready b m h
    obtain ⟨F, m1, h1, h2, h3, h4⟩ := ih (txStore b (polled m (n + 1))) h
    refine ⟨max (n + 1) F, m1, fun fuel hf => ?_, ?_, ?_, ?_⟩
    · simp only [uart_putc_each, hn fuel (by have := le_max_left (n + 1) F; omega)]
      exact h1 fuel (le_trans (le_max_right _ _) hf)
    · rw [h2]; rfl
    · rw [h3, txStore_polled_tx]; simp
    · rw [h4, txStore_polled_writes]; simp

theorem uart_puts_ready :
    ∀ (s : List Nat) (rest : List Nat) (m : Machine), (∀ b ∈ s, b ≠ 0) →
      EventuallyReady m.status →
      ∃ F m1, (∀ fuel, F ≤ fuel → uart_puts fuel (s ++ 0 :: rest) m = .returned m1) ∧
        m1.status = m.status ∧ m1.tx = m.tx ++ s ∧
        txWrites m1.trace = txWrites m.trace ++ s := by
  intro s
  induction s with
  | nil => intro rest m _ _; exact ⟨0, m, fun _ _ => by simp [uart_puts], rfl, by simp, by simp⟩
  | cons b bs ih =>
    intro rest m hs h
    have hb : b ≠ 0 := hs b (by simp)
    obtain ⟨n, hn⟩ := uart_putc_ready b m h
    obtain ⟨F, m1, h1, h2, h3, h4⟩ := ih rest (txStore b (polled m (n + 1)))
      (fun x hx => hs x (by simp [hx])) h
    refine ⟨max (n + 1) F, m1, fun fuel hf => ?_, ?_, ?_, ?_⟩
    · simp only [List.cons_append, uart_puts, hb, if_false,
        hn fuel (by have := le_max_left (n + 1) F; omega)]
      exact h1 fuel (le_trans (le_max_right _ _) hf)
    · rw [h2]; rfl
    · rw [h3, txStore_polled_tx]; simp
    · rw [h4, txStore_polled_writes]; simp

theorem txReady_eq_testBit (v : Nat) : txReady v = v.testBit 5 := by
  have h32 : (1 <<< 5 : Nat) = 2 ^ 5 := by decide
  unfold txReady
  rw [h32]
  cases hb : v.testBit 5
  · have : v &&& 2 ^ 5 = 0 := by
      apply Nat.eq_of_testBit_eq
      intro i
      rw [Nat.testBit_and, Nat.testBit_two_pow, Nat.zero_testBit]
      by_cases h : 5 = i
      · subst h; simp [hb]
      · simp [h]
    simpa using this
  · have : v &&& 2 ^ 5 ≠ 0 := by
      intro h0
      have := congrArg (fun x => Nat.testBit x 5) h0
      simp only [Nat.testBit_and, hb, Nat.testBit_two_pow, Nat.zero_testBit] at this
      simp at this
    simpa using this

theorem ConsoleOnly.refl (m : Machine) : ConsoleOnly m m :=
  ⟨rfl, rfl, le_refl _, rfl, rfl, rfl, rfl⟩

theorem ConsoleOnly.trans {a b c : Machine} (h1 : ConsoleOnly a b) (h2 : ConsoleOnly b c) :
    ConsoleOnly a c := by
  obtain ⟨a1, a2, a3, a4, a5, a6, a7⟩ := h1
  obtain ⟨b1, b2, b3, b4, b5, b6, b7⟩ := h2
  exact ⟨b1.trans a1, b2.trans a2, le_trans a3 b3, b4.trans a4, b5.trans a5,
    b6.trans a6, b7.trans a7⟩

theorem uart_putc_frame (c : Nat) :
    ∀ (fuel : Nat) (m : Machine), ConsoleOnly m (uart_putc c fuel m).state := by
  intro fuel
  induction fuel with
  | zero => intro m; exact ConsoleOnly.refl m
  | succ f ih =>
    intro m
    simp only [uart_putc]
    split
    · exact ⟨rfl, rfl, by simp [Outcome.state]; omega, rfl, rfl, rfl, rfl⟩
    · refine ConsoleOnly.trans ?_ (ih _)
      exact ⟨rfl, rfl, by simp, rfl, rfl, rfl, rfl⟩

theorem uart_puts_frame (fuel : Nat) :
    ∀ (s : List Nat) (m : Machine), ConsoleOnly m (uart_puts fuel s m).state := by
  intro s
  induction s with
  | nil => intro m; exact ConsoleOnly.refl m
  | cons c s ih =>
    intro m
    simp only [uart_puts]
    split
    · exact ConsoleOnly.refl m
    · have hc := uart_putc_frame c fuel m
      split
      · next m1 h1 =>
        rw [h1] at hc
        exact ConsoleOnly.trans hc (ih m1)
      · next m1 h1 =>
        rw [h1] at hc
        exact hc

theorem program_deadline_trace (m : Machine) :
    (program_deadline m).trace =
      m.trace ++ [Eff.rdMtime (m.mtime m.now), Eff.wrCmp ((m.mtime m.now + 1000000) % 2 ^ 64)] := by
  simp [program_deadline]

theorem cstr_MTIP : cstr "MTIP\n" = [77, 84, 73, 80, 10] ++ 0 :: [] := by decide

/-- With a device that becomes ready, the handler returns, has sent the marker,
and has programmed the counter value it read plus the interval.  The read of
`MTIME` is the last access but one of the handler (access number `n`), the write
of `MTIMECMP` the last, and the five stores of the marker come before both. -/
theorem timer_handler_ready (m : Machine) (hdev : EventuallyReady m.status) :
    ∃ F m1 n, (∀ fuel, F ≤ fuel → timer_handler fuel m = .returned m1) ∧
      m.now ≤ n ∧ m1.now = n + 2 ∧ m1.mtime = m.mtime ∧ m1.status = m.status ∧
      m1.mtimecmp = (m.mtime n + 1000000) % 2 ^ 64 ∧
      m1.tx = m.tx ++ [77, 84, 73, 80, 10] ∧
      txWrites m1.trace = txWrites m.trace ++ [77, 84, 73, 80, 10] ∧
      m1.mie = m.mie ∧ m1.mstatus = m.mstatus ∧
      ∃ tr, m1.trace = tr ++ [Eff.rdMtime (m.mtime n),
                              Eff.wrCmp ((m.mtime n + 1000000) % 2 ^ 64)] ∧
        txWrites tr = txWrites m.trace ++ [77, 84, 73, 80, 10] := by
  obtain ⟨F, p, hp, hst, htx, htr⟩ := uart_puts_ready [77, 84, 73, 80, 10] [] m (by decide) hdev
  have hfr := uart_puts_frame F ([77, 84, 73, 80, 10] ++ 0 :: []) m
  rw [hp F (le_refl _)] at hfr
  obtain ⟨f1, f2, f3, f4, f5, f6, f7⟩ := hfr
  simp only [Outcome.state] at f1 f2 f3 f4 f5 f6 f7
  refine ⟨F, program_deadline p, p.now, ?_, f3, rfl, ?_, ?_, ?_, ?_, ?_, ?_, ?_, ?_⟩
  · intro fuel hf
    simp only [timer_handler, cstr_MTIP, hp fuel hf]
  · simpa [program_deadline] using f2
  · simpa [program_deadline] using f1
  · simp [program_deadline, f2]
  · simpa [program_deadline] using htx
  · rw [program_deadline_trace, txWrites_append, htr]; simp [txWrites]
  · simpa [program_deadline] using f6
  · simpa [program_deadline] using f7
  · refine ⟨p.trace, ?_, htr⟩
    rw [program_deadline_trace, f2]

theorem timer_handler_frame (fuel : Nat) (m : Machine) :
    (timer_handler fuel m).state.mie = m.mie ∧
    (timer_handler fuel m).state.mstatus = m.mstatus := by
  have hfr := uart_puts_frame fuel (cstr "MTIP\n") m
  unfold timer_handler
  split
  · next m1 h1 =>
    rw [h1] at hfr
    obtain ⟨_, _, _, _, _, f6, f7⟩ := hfr
    exact ⟨f6, f7⟩
  · next m1 h1 =>
    rw [h1] at hfr
    obtain ⟨_, _, _, _, _, f6, f7⟩ := hfr
    exact ⟨f6, f7⟩

theorem alwaysReady (c : Nat) : EventuallyReady (machineAt c).status :=
  fun _ => ⟨0, by simp [machineAt, txReady]⟩

/-- C3 (as amended): when the counter does not decrease, the device becomes
ready, and the counter plus 1000000 does not wrap around 2^64, `timer_handler`
returns and the compare value it has programmed is strictly greater than the
counter value at handler entry. -/
theorem timer_handler_deadline_after_entry (m : Machine) (hmono : Monotone m.mtime)
    (hdev : EventuallyReady m.status) (hnowrap : ∀ n, m.mtime n + 1000000 < 2 ^ 64) :
    ∃ F m1, (∀ fuel, F ≤ fuel → timer_handler fuel m = .returned m1) ∧
      m.mtime m.now < m1.mtimecmp := by
  obtain ⟨F, m1, n, h1, hn, _, _, _, hcmp, _⟩ := timer_handler_ready m hdev
  refine ⟨F, m1, h1, ?_⟩
  rw [hcmp, Nat.mod_eq_of_lt (hnowrap n)]
  have := hmono hn
  omega

/-- The amended C3 at a ready machine whose counter stands at 5. -/
theorem timer_handler_deadline_after_entry_witness :
    ∃ F m1, (∀ fuel, F ≤ fuel → timer_handler fuel (machineAt 5) = .returned m1) ∧
      (machineAt 5).mtime (machineAt 5).now < m1.mtimecmp :=
  timer_handler_deadline_after_entry (machineAt 5) monotone_const (alwaysReady 5)
    (fun _ => by show 5 + 1000000 < 2 ^ 64; decide)

/-- C3 (counterexample): entered with the 64-bit counter at 2^64 - 1 (constant,
hence non-decreasing, device ready), `timer_handler` programs the wrapped sum
999999, which is not greater than the counter value at entry. -/
theorem timer_handler_deadline_wraps :
    Monotone (machineAt (2 ^ 64 - 1)).mtime ∧
    (machineAt (2 ^ 64 - 1)).mtime (machineAt (2 ^ 64 - 1)).now = 2 ^ 64 - 1 ∧
    ∃ m1, timer_handler 1 (machineAt (2 ^ 64 - 1)) = .returned m1 ∧
      m1.mtimecmp = 999999 ∧
      ¬ ((machineAt (2 ^ 64 - 1)).mtime (machineAt (2 ^ 64 - 1)).now < m1.mtimecmp) :=
  ⟨monotone_const, rfl, _, rfl, by decide, by decide⟩

/-- C4 (as amended): for two consecutive invocations of `timer_handler`, with
any foreground activity `fg` in between that leaves the oracles alone, each
invocation programs the counter value it read plus 1000000 (modulo 2^64); the
second read is later than the first, and without wrap-around the difference of
the two compare values is the difference of the two counter values read.  The
counter value an invocation uses is the one it reads itself after sending the
marker: the read is the access just before its write of the compare register,
which is its last access (`n1 + 2 = m1.now`, `n2 + 2 = m2.now`), the second read
is not before the second entry, and in the trace of each invocation the five
stores of "MTIP\n" precede the read of `MTIME`, which the write of `MTIMECMP`
follows directly. -/
theorem consecutive_deadlines_follow_reads (m : Machine) (fg : Machine → Machine)
    (hdev : EventuallyReady m.status)
    (hfg : ∀ x, (fg x).mtime = x.mtime ∧ (fg x).status = x.status ∧ x.now ≤ (fg x).now) :
    ∃ F m1 m2 n1 n2,
      (∀ fuel, F ≤ fuel → timer_handler fuel m = .returned m1 ∧
        timer_handler fuel (fg m1) = .returned m2) ∧
      m.now ≤ n1 ∧ n1 < n2 ∧
      m1.mtimecmp = (m.mtime n1 + 1000000) % 2 ^ 64 ∧
      m2.mtimecmp = (m.mtime n2 + 1000000) % 2 ^ 64 ∧
      (m.mtime n1 + 1000000 < 2 ^ 64 → m.mtime n2 + 1000000 < 2 ^ 64 →
        (m2.mtimecmp : Int) - m1.mtimecmp = (m.mtime n2 : Int) - m.mtime n1) ∧
      n1 + 2 = m1.now ∧ (fg m1).now ≤ n2 ∧ n2 + 2 = m2.now ∧
      (∃ tr, m1.trace = tr ++ [Eff.rdMtime (m.mtime n1), Eff.wrCmp m1.mtimecmp] ∧
        txWrites tr = txWrites m.trace ++ [77, 84, 73, 80, 10]) ∧
      (∃ tr, m2.trace = tr ++ [Eff.rdMtime (m.mtime n2), Eff.wrCmp m2.mtimecmp] ∧
        txWrites tr = txWrites (fg m1).trace ++ [77, 84, 73, 80, 10]) := by
  obtain ⟨F1, m1, n1, h1, hn1, hnow1, hclk1, hst1, hcmp1, _, _, _, _, tr1, ht1, hw1⟩ :=
    timer_handler_ready m hdev
  obtain ⟨g1, g2, g3⟩ := hfg m1
  have hdev2 : EventuallyReady (fg m1).status := by rw [g2, hst1]; exact hdev
  obtain ⟨F2, m2, n2, h2, hn2, hnow2, _, _, hcmp2, _, _, _, _, tr2, ht2, hw2⟩ :=
    timer_handler_ready (fg m1) hdev2
  rw [g1, hclk1] at hcmp2 ht2
  refine ⟨max F1 F2, m1, m2, n1, n2, fun fuel hf => ⟨h1 fuel (le_trans (le_max_left _ _) hf),
    h2 fuel (le_trans (le_max_right _ _) hf)⟩, hn1, by omega, hcmp1, hcmp2, ?_,
    hnow1.symm, hn2, hnow2.symm, ⟨tr1, by rw [hcmp1]; exact ht1, hw1⟩,
    ⟨tr2, by rw [hcmp2]; exact ht2, hw2⟩⟩
  intro w1 w2
  rw [hcmp1, hcmp2, Nat.mod_eq_of_lt w1, Nat.mod_eq_of_lt w2]
  push_cast
  ring

/-- The amended C4 on the machine whose second trap is taken 5 ticks late. -/
theorem consecutive_deadlines_follow_reads_witness :
    ∃ F m1 m2 n1 n2,
      (∀ fuel, F ≤ fuel → timer_handler fuel jitterMachine = .returned m1 ∧
        timer_handler fuel (id m1) = .returned m2) ∧
      jitterMachine.now ≤ n1 ∧ n1 < n2 ∧
      m1.mtimecmp = (jitterMachine.mtime n1 + 1000000) % 2 ^ 64 ∧
      m2.mtimecmp = (jitterMachine.mtime n2 + 1000000) % 2 ^ 64 ∧
      (jitterMachine.mtime n1 + 1000000 < 2 ^ 64 → jitterMachine.mtime n2 + 1000000 < 2 ^ 64 →
        (m2.mtimecmp : Int) - m1.mtimecmp
          = (jitterMachine.mtime n2 : Int) - jitterMachine.mtime n1) ∧
      n1 + 2 = m1.now ∧ (id m1).now ≤ n2 ∧ n2 + 2 = m2.now ∧
      (∃ tr, m1.trace = tr ++ [Eff.rdMtime (jitterMachine.mtime n1), Eff.wrCmp m1.mtimecmp] ∧
        txWrites tr = txWrites jitterMachine.trace ++ [77, 84, 73, 80, 10]) ∧
      (∃ tr, m2.trace = tr ++ [Eff.rdMtime (jitterMachine.mtime n2), Eff.wrCmp m2.mtimecmp] ∧
        txWrites tr = txWrites (id m1).trace ++ [77, 84, 73, 80, 10]) :=
  consecutive_deadlines_follow_reads jitterMachine id (fun _ => ⟨0, by simp [jitterMachine, machineAt, txReady]⟩)
    (fun x => ⟨rfl, rfl, le_refl _⟩)

/-- C4 (counterexample): after `enable_timer_interrupt` at counter 0, a handler
invocation that reads the counter at 1000000 programs 2000000 and the next one,
entered 5 ticks late, programs 3000005; the two compare values are 1000005
apart, not 1000000. -/
theorem deadline_spacing_follows_jitter :
    Monotone jitterMachine.mtime ∧
    (enable_timer_interrupt jitterMachine).mtimecmp = 1000000 ∧
    ∃ m1 m2, timer_handler 1 (enable_timer_interrupt jitterMachine) = .returned m1 ∧
      timer_handler 1 m1 = .returned m2 ∧
      m1.mtimecmp = 2000000 ∧ m2.mtimecmp = 3000005 ∧
      m2.mtimecmp - m1.mtimecmp ≠ 1000000 := by
  refine ⟨?_, by decide, _, _, rfl, rfl, by decide, by decide, by decide⟩
  intro a b hab
  show (if a < 2 then 0 else if a < 14 then 1000000 else 2000005)
    ≤ (if b < 2 then 0 else if b < 14 then 1000000 else 2000005)
  split_ifs <;> omega

theorem enable_timer_interrupt_eq (m : Machine) :
    enable_timer_interrupt m = csrs_mstatus_8 (csrs_mie_t0 (li_t0 (program_deadline m))) := rfl

/-- C5: with the counter standing at `c` during the call, `enable_timer_interrupt`
writes `c + 1000000` (as a 64-bit sum) to the compare register, and, the device
becoming ready, `timer_handler` returns having transmitted exactly the five
bytes of "MTIP\n" and having written `c + 1000000` to the compare register. -/
theorem arm_and_handler_program_counter_plus_interval (c : Nat) (m : Machine)
    (hc : ∀ n, m.mtime n = c) (hdev : EventuallyReady m.status) :
    (enable_timer_interrupt m).mtimecmp = (c + 1000000) % 2 ^ 64 ∧
    (c + 1000000 < 2 ^ 64 → (enable_timer_interrupt m).mtimecmp = c + 1000000) ∧
    ∃ F m1, (∀ fuel, F ≤ fuel → timer_handler fuel m = .returned m1) ∧
      m1.tx = m.tx ++ [77, 84, 73, 80, 10] ∧
      txWrites m1.trace = txWrites m.trace ++ [77, 84, 73, 80, 10] ∧
      m1.mtimecmp = (c + 1000000) % 2 ^ 64 ∧
      (c + 1000000 < 2 ^ 64 → m1.mtimecmp = c + 1000000) := by
  have he : (enable_timer_interrupt m).mtimecmp = (c + 1000000) % 2 ^ 64 := by
    rw [enable_timer_interrupt_eq]
    simp [csrs_mstatus_8, csrs_mie_t0, li_t0, program_deadline, hc]
  obtain ⟨F, m1, n, h1, _, _, _, _, hcmp, htx, htr, _⟩ := timer_handler_ready m hdev
  rw [hc n] at hcmp
  refine ⟨he, fun h => ?_, F, m1, h1, htx, htr, hcmp, fun h => ?_⟩
  · rw [he, Nat.mod_eq_of_lt h]
  · rw [hcmp, Nat.mod_eq_of_lt h]

/-- The scenario of C5: arming at counter 0 programs 1000000; the handler at
counter 1000000 sends one marker and programs 2000000; the handler at counter
2000000 programs 3000000. -/
theorem arm_and_handler_scenario :
    (enable_timer_interrupt (machineAt 0)).mtimecmp = 1000000 ∧
    (∃ F m1, (∀ fuel, F ≤ fuel → timer_handler fuel (machineAt 1000000) = .returned m1) ∧
      m1.tx = [77, 84, 73, 80, 10] ∧ m1.mtimecmp = 2000000) ∧
    (∃ F m1, (∀ fuel, F ≤ fuel → timer_handler fuel (machineAt 2000000) = .returned m1) ∧
      m1.mtimecmp = 3000000) := by
  refine ⟨by decide, ?_, ?_⟩
  · obtain ⟨_, _, F, m1, h1, htx, _, _, hcmp⟩ :=
      arm_and_handler_program_counter_plus_interval 1000000 (machineAt 1000000)
        (fun _ => rfl) (alwaysReady 1000000)
    exact ⟨F, m1, h1, htx, hcmp (by decide)⟩
  · obtain ⟨_, _, F, m1, h1, _, _, _, hcmp⟩ :=
      arm_and_handler_program_counter_plus_interval 2000000 (machineAt 2000000)
        (fun _ => rfl) (alwaysReady 2000000)
    exact ⟨F, m1, h1, hcmp (by decide)⟩

theorem enable_upto_cases (k : Nat) (m : Machine) :
    enable_upto k m = m ∨ enable_upto k m = program_deadline m ∨
    enable_upto k m = li_t0 (program_deadline m) ∨
    enable_upto k m = csrs_mie_t0 (li_t0 (program_deadline m)) ∨
    (4 ≤ k ∧ enable_upto k m = enable_timer_interrupt m) := by
  rcases k with _ | _ | _ | _ | k
  · exact Or.inl rfl
  · exact Or.inr (Or.inl rfl)
  · exact Or.inr (Or.inr (Or.inl rfl))
  · exact Or.inr (Or.inr (Or.inr (Or.inl rfl)))
  · refine Or.inr (Or.inr (Or.inr (Or.inr ⟨by omega, ?_⟩)))
    simp [enable_timer_interrupt, enable_upto, enable_stmts]

/-- C6: `enable_timer_interrupt` performs, in this order, the write of
counter + 1000000 to the compare register, the setting of bit 7 (0x80) of `mie`
and the setting of bit 3 (0x8) of `mstatus`.  In every state reached inside the
function where it has already executed `csrs mstatus`, the compare register
holds the deadline and bit 7 of `mie` is set; before its last statement
`mstatus` is untouched.  The other functions of the program (`uart_putc`,
`uart_puts`, `timer_handler`) never change `mie` or `mstatus`. -/
theorem enable_arms_before_enabling (m : Machine) :
    (enable_timer_interrupt m).trace = m.trace ++
      [Eff.rdMtime (m.mtime m.now), Eff.wrCmp ((m.mtime m.now + 1000000) % 2 ^ 64),
       Eff.csrsMie 0x80, Eff.csrsMstatus 0x8] ∧
    (enable_timer_interrupt m).mtimecmp = (m.mtime m.now + 1000000) % 2 ^ 64 ∧
    (enable_timer_interrupt m).mie = m.mie ||| 0x80 ∧
    (enable_timer_interrupt m).mstatus = m.mstatus ||| 0x8 ∧
    (enable_timer_interrupt m).mie.testBit 7 = true ∧
    (enable_timer_interrupt m).mstatus.testBit 3 = true ∧
    (∀ k, Eff.csrsMstatus 0x8 ∈ (enable_upto k m).trace.drop m.trace.length →
      (enable_upto k m).mtimecmp = (m.mtime m.now + 1000000) % 2 ^ 64 ∧
      (enable_upto k m).mie.testBit 7 = true) ∧
    (∀ k, k < 4 → (enable_upto k m).mstatus = m.mstatus) ∧
    (∀ fuel c s,
      (uart_putc c fuel m).state.mie = m.mie ∧ (uart_putc c fuel m).state.mstatus = m.mstatus ∧
      (uart_puts fuel s m).state.mie = m.mie ∧ (uart_puts fuel s m).state.mstatus = m.mstatus ∧
      (timer_handler fuel m).state.mie = m.mie ∧
      (timer_handler fuel m).state.mstatus = m.mstatus) := by
  have hmie : (enable_timer_interrupt m).mie = m.mie ||| 0x80 := rfl
  have hms : (enable_timer_interrupt m).mstatus = m.mstatus ||| 0x8 := rfl
  have hb7 : (m.mie ||| 0x80).testBit 7 = true := by
    rw [Nat.testBit_lor]; simp [show Nat.testBit 128 7 = true by decide]
  have hb3 : (m.mstatus ||| 0x8).testBit 3 = true := by
    rw [Nat.testBit_lor]; simp [show Nat.testBit 8 3 = true by decide]
  refine ⟨?_, rfl, hmie, hms, ?_, ?_, ?_, ?_, ?_⟩
  · rw [enable_timer_interrupt_eq]
    simp [csrs_mstatus_8, csrs_mie_t0, li_t0, program_deadline]
  · rw [hmie]; exact hb7
  · rw [hms]; exact hb3
  · intro k hk
    rcases enable_upto_cases k m with h | h | h | h | ⟨_, h⟩
    · rw [h] at hk; simp at hk
    · rw [h] at hk; simp [program_deadline] at hk
    · rw [h] at hk; simp [program_deadline, li_t0] at hk
    · rw [h] at hk; simp [program_deadline, li_t0, csrs_mie_t0] at hk
    · rw [h]; exact ⟨rfl, by rw [hmie]; exact hb7⟩
  · intro k hk
    rcases k with _ | _ | _ | _ | k
    · rfl
    · rfl
    · rfl
    · rfl
    · omega
  · intro fuel c s
    obtain ⟨_, _, _, _, _, a6, a7⟩ := uart_putc_frame c fuel m
    obtain ⟨_, _, _, _, _, b6, b7⟩ := uart_puts_frame fuel s m
    obtain ⟨c6, c7⟩ := timer_handler_frame fuel m
    exact ⟨a6, a7, b6, b7, c6, c7⟩

/-- The order of C6 on a machine at reset with the counter at 0. -/
theorem enable_arms_before_enabling_witness :
    (enable_timer_interrupt (machineAt 0)).trace =
      [Eff.rdMtime 0, Eff.wrCmp 1000000, Eff.csrsMie 0x80, Eff.csrsMstatus 0x8] ∧
    (enable_upto 3 (machineAt 0)).mstatus = 0 ∧
    (enable_upto 4 (machineAt 0)).mtimecmp = 1000000 ∧
    (enable_upto 4 (machineAt 0)).mie.testBit 7 = true :=
  ⟨(enable_arms_before_enabling (machineAt 0)).1,
   (enable_arms_before_enabling (machineAt 0)).2.2.2.2.2.2.2.1 3 (by decide),
   ((enable_arms_before_enabling (machineAt 0)).2.2.2.2.2.2.1 4 (by decide)).1,
   ((enable_arms_before_enabling (machineAt 0)).2.2.2.2.2.2.1 4 (by decide)).2⟩

theorem uart_puts_twice (m : Machine) (hdev : EventuallyReady m.status)
    (s t rs rt : List Nat) (hs : ∀ b ∈ s, b ≠ 0) (ht : ∀ b ∈ t, b ≠ 0) :
    ∃ F m1 m2, (∀ fuel, F ≤ fuel → uart_puts fuel (s ++ 0 :: rs) m = .returned m1 ∧
        uart_puts fuel (t ++ 0 :: rt) m1 = .returned m2) ∧
      m1.tx = m.tx ++ s ∧ txWrites m1.trace = txWrites m.trace ++ s ∧
      m2.tx = m.tx ++ (s ++ t) ∧ txWrites m2.trace = txWrites m.trace ++ (s ++ t) := by
  obtain ⟨F1, m1, h1, hst1, htx1, htr1⟩ := uart_puts_ready s rs m hs hdev
  obtain ⟨F2, m2, h2, _, htx2, htr2⟩ := uart_puts_ready t rt m1 ht (by rw [hst1]; exact hdev)
  refine ⟨max F1 F2, m1, m2, fun fuel hf => ⟨h1 fuel (le_trans (le_max_left _ _) hf),
    h2 fuel (le_trans (le_max_right _ _) hf)⟩, htx1, htr1, ?_, ?_⟩
  · rw [htx2, htx1, List.append_assoc]
  · rw [htr2, htr1, List.append_assoc]

/-- C7: with a device that reports ready after finitely many polls, the bytes
stored to the transmit register are exactly the bytes handed over, in order and
with nothing added: for bytes `bs` passed to `uart_putc` one call at a time, and
for a NUL-terminated string `s` passed to `uart_puts` (the terminator is not
transmitted).  `uart_puts(s)` followed by `uart_puts(t)` transmits `s ++ t`, and
the same string twice transmits it doubled. -/
theorem console_byte_fidelity (m : Machine) (hdev : EventuallyReady m.status)
    (bs s t rs rt : List Nat) (hs : ∀ b ∈ s, b ≠ 0) (ht : ∀ b ∈ t, b ≠ 0) :
    (∃ F m1, (∀ fuel, F ≤ fuel → uart_putc_each fuel bs m = .returned m1) ∧
      m1.tx = m.tx ++ bs ∧ txWrites m1.trace = txWrites m.trace ++ bs) ∧
    (∃ F m1 m2, (∀ fuel, F ≤ fuel → uart_puts fuel (s ++ 0 :: rs) m = .returned m1 ∧
        uart_puts fuel (t ++ 0 :: rt) m1 = .returned m2) ∧
      m1.tx = m.tx ++ s ∧ txWrites m1.trace = txWrites m.trace ++ s ∧
      m2.tx = m.tx ++ (s ++ t) ∧ txWrites m2.trace = txWrites m.trace ++ (s ++ t)) ∧
    (∃ F m1 m2, (∀ fuel, F ≤ fuel → uart_puts fuel (s ++ 0 :: rs) m = .returned m1 ∧
        uart_puts fuel (s ++ 0 :: rs) m1 = .returned m2) ∧
      m2.tx = m.tx ++ (s ++ s) ∧ txWrites m2.trace = txWrites m.trace ++ (s ++ s)) := by
  refine ⟨?_, uart_puts_twice m hdev s t rs rt hs ht, ?_⟩
  · obtain ⟨F, m1, h1, _, h3, h4⟩ := uart_putc_each_ready bs m hdev
    exact ⟨F, m1, h1, h3, h4⟩
  · obtain ⟨F, m1, m2, h, _, _, h3, h4⟩ := uart_puts_twice m hdev s s rs rs hs hs
    exact ⟨F, m1, m2, h, h3, h4⟩

/-- The fidelity of C7 for the bytes 'A', NUL, 'B' and the strings "Hi" and
"\n" on a ready machine. -/
theorem console_byte_fidelity_witness :
    (∃ F m1, (∀ fuel, F ≤ fuel → uart_putc_each fuel [65, 0, 66] (machineAt 0) = .returned m1) ∧
      m1.tx = [65, 0, 66] ∧ txWrites m1.trace = [65, 0, 66]) ∧
    (∃ F m1 m2, (∀ fuel, F ≤ fuel →
        uart_puts fuel ([72, 105] ++ 0 :: [33]) (machineAt 0) = .returned m1 ∧
        uart_puts fuel ([10] ++ 0 :: []) m1 = .returned m2) ∧
      m1.tx = [72, 105] ∧ txWrites m1.trace = [72, 105] ∧
      m2.tx = [72, 105, 10] ∧ txWrites m2.trace = [72, 105, 10]) ∧
    (∃ F m1 m2, (∀ fuel, F ≤ fuel →
        uart_puts fuel ([72, 105] ++ 0 :: [33]) (machineAt 0) = .returned m1 ∧
        uart_puts fuel ([72, 105] ++ 0 :: [33]) m1 = .returned m2) ∧
      m2.tx = [72, 105, 72, 105] ∧ txWrites m2.trace = [72, 105, 72, 105]) :=
  console_byte_fidelity (machineAt 0) (alwaysReady 0) [65, 0, 66] [72, 105] [10] [33] []
    (by decide) (by decide)

/-- C8: when the first `n` reads of the status register return a value with
bit 5 clear and the next one a value with bit 5 set, `uart_putc(b)`, given more
than `n` polls, returns after exactly `n + 1` status reads followed by a single
store of `b` to the transmit register (the trace it appends is those reads and
then the store).  When no read ever returns bit 5 set, `uart_putc` is still
polling whatever the number of polls allowed, and has stored nothing. -/
theorem uart_putc_waits_for_ready (b : Nat) (m : Machine) :
    (∀ n, (∀ k, k < n → (m.status (m.reads + k)).testBit 5 = false) →
      (m.status (m.reads + n)).testBit 5 = true →
      ∀ fuel, n < fuel → ∃ m1, uart_putc b fuel m = .returned m1 ∧
        m1.reads = m.reads + (n + 1) ∧ m1.tx = m.tx ++ [b] ∧
        m1.trace = m.trace ++
          (List.range (n + 1)).map (fun k => Eff.rdStatus (m.status (m.reads + k))) ++
          [Eff.wrTx b]) ∧
    ((∀ k, (m.status (m.reads + k)).testBit 5 = false) →
      ∀ fuel, ∃ m1, uart_putc b fuel m = .spinning m1 ∧
        m1.reads = m.reads + fuel ∧ m1.tx = m.tx ∧
        m1.trace = m.trace ++
          (List.range fuel).map (fun k => Eff.rdStatus (m.status (m.reads + k)))) := by
  constructor
  · intro n hc hr fuel hf
    refine ⟨_, uart_putc_returns b n fuel m ?_ ?_ hf, rfl, rfl, rfl⟩
    · intro k hk; rw [txReady_eq_testBit]; exact hc k hk
    · rw [txReady_eq_testBit]; exact hr
  · intro hc fuel
    refine ⟨_, uart_putc_spins b fuel m ?_, rfl, rfl, rfl⟩
    intro k _; rw [txReady_eq_testBit]; exact hc k

/-- The two halves of C8: a UART ready at the third poll, and one never ready. -/
theorem uart_putc_waits_for_ready_witness :
    (∃ m1, uart_putc 65 3 slowUart = .returned m1 ∧ m1.reads = 3 ∧ m1.tx = [65] ∧
      m1.trace = [Eff.rdStatus 0x00, Eff.rdStatus 0xDF, Eff.rdStatus 0x20, Eff.wrTx 65]) ∧
    (∀ fuel, ∃ m1, uart_putc 65 fuel deadUart = .spinning m1 ∧ m1.reads = 0 + fuel ∧
      m1.tx = [] ∧
      m1.trace = [] ++ (List.range fuel).map (fun k => Eff.rdStatus (deadUart.status (0 + k)))) :=
  ⟨(uart_putc_waits_for_ready 65 slowUart).1 2
      (by decide) (by decide) 3 (by decide),
   (uart_putc_waits_for_ready 65 deadUart).2 (fun _ => by show Nat.testBit 0xDF 5 = false; decide)⟩

/-! ## Decimal printing -/

theorem set_take_succ (buf : List Nat) (i d : Nat) (h : i < buf.length) :
    (buf.set i d).take (i + 1) = buf.take i ++ [d] := by
  induction buf generalizing i with
  | nil => simp at h
  | cons a l ih =>
    cases i with
    | zero => simp
    | succ i => simp at h; simp [ih i h]

/-- The digit loop stores the decimal digits of `n`, least significant first,
from index `i` on. -/
theorem digit_loop_digits :
    ∀ (n fuel : Nat) (buf : List Nat) (i : Nat),
      (Nat.digits 10 n).length ≤ fuel → i + (Nat.digits 10 n).length ≤ buf.length →
      ∃ buf1, digit_loop fuel (n : Int) buf i = .done buf1 (i + (Nat.digits 10 n).length) ∧
        buf1.length = buf.length ∧
        buf1.take (i + (Nat.digits 10 n).length)
          = buf.take i ++ (Nat.digits 10 n).map (fun d => 48 + d) := by
  intro n
  induction n using Nat.strong_induction_on with
  | _ n ih =>
    intro fuel buf i hf hb
    rcases Nat.eq_zero_or_pos n with h0 | hpos
    · subst h0
      refine ⟨buf, ?_, rfl, by simp⟩
      cases fuel <;> simp [digit_loop]
    · have hd := Nat.digits_def' (by norm_num : 1 < 10) hpos
      rw [hd] at hf hb ⊢
      simp only [List.length_cons] at hf hb ⊢
      obtain ⟨f, rfl⟩ : ∃ f, fuel = f + 1 := ⟨fuel - 1, by omega⟩
      have hi : i < buf.length := by omega
      have hnum : (n : Int) > 0 := by exact_mod_cast hpos
      have hdiv : (n : Int).tdiv 10 = ((n / 10 : Nat) : Int) := by
        rw [Int.tdiv_eq_ediv (by omega) (by norm_num)]; norm_cast
      have hmod : ((48 + (n : Int).tmod 10) % 256).toNat = 48 + n % 10 := by
        rw [Int.tmod_eq_emod (by omega) (by norm_num)]
        have : (48 + (n : Int) % 10) % 256 = ((48 + n % 10 : Nat) : Int) := by
          push_cast; omega
        rw [this, Int.toNat_ofNat]
      obtain ⟨buf1, h1, h2, h3⟩ := ih (n / 10) (Nat.div_lt_self hpos (by norm_num)) f
        (buf.set i (48 + n % 10)) (i + 1) (by omega) (by simp; omega)
      refine ⟨buf1, ?_, by simpa using h2, ?_⟩
      · simp only [digit_loop, hnum, if_true, hi, hdiv, hmod]
        rw [h1]
        congr 1
        omega
      · have e : i + ((Nat.digits 10 (n / 10)).length + 1)
            = i + 1 + (Nat.digits 10 (n / 10)).length := by omega
        rw [e, h3, set_take_succ buf i _ hi]
        simp

theorem digits_length_le_ten (n : Nat) (h : n < 2 ^ 31) : (Nat.digits 10 n).length ≤ 10 := by
  rcases Nat.eq_zero_or_pos n with h0 | hpos
  · subst h0; simp
  · have h1 := Nat.base_pow_length_digits_le 10 n (by norm_num) (by omega)
    have h2 : 10 ^ (Nat.digits 10 n).length < 10 ^ 11 := by
      calc 10 ^ (Nat.digits 10 n).length ≤ 10 * n := h1
        _ < 10 ^ 11 := by norm_num at h ⊢; omega
    have := (Nat.pow_lt_pow_iff_right (by norm_num : 1 < 10)).1 h2
    omega

/-- The print loop sends `buf[i-1]`, ..., `buf[0]`. -/
theorem print_loop_ready (buf : List Nat) :
    ∀ (i : Nat) (m : Machine), i ≤ buf.length → EventuallyReady m.status →
      ∃ F m1, (∀ fuel, F ≤ fuel → print_loop fuel buf i m = .returned m1) ∧
        m1.status = m.status ∧ m1.tx = m.tx ++ (buf.take i).reverse := by
  intro i
  induction i with
  | zero => intro m _ _; exact ⟨0, m, fun _ _ => rfl, rfl, by simp⟩
  | succ i ih =>
    intro m hi h
    obtain ⟨n, hn⟩ := uart_putc_ready (buf.getD i 0) m h
    obtain ⟨F, m1, h1, h2, h3⟩ := ih (txStore (buf.getD i 0) (polled m (n + 1))) (by omega) h
    refine ⟨max (n + 1) F, m1, fun fuel hf => ?_, ?_, ?_⟩
    · simp only [print_loop, hn fuel (by have := le_max_left (n + 1) F; omega)]
      exact h1 fuel (le_trans (le_max_right _ _) hf)
    · rw [h2]; rfl
    · have hi1 : i < buf.length := by omega
      have e : (List.take (i + 1) buf).reverse = buf.getD i 0 :: (List.take i buf).reverse := by
        rw [List.take_succ, List.getD_eq_getElem _ _ hi1, List.getElem?_eq_getElem hi1]
        simp
      rw [h3, txStore_polled_tx, e]
      simp

theorem wrap_int_of_range (x : Int) (h1 : -2 ^ 31 ≤ x) (h2 : x < 2 ^ 31) : wrap_int x = x := by
  unfold wrap_int
  rw [Int.emod_eq_of_lt (by omega) (by omega)]
  omega

theorem digit_loop_more_fuel :
    ∀ (fuel fuel1 : Nat) (num : Int) (buf : List Nat) (i : Nat) (b : List Nat) (k : Nat),
      fuel ≤ fuel1 → digit_loop fuel num buf i = .done b k →
      digit_loop fuel1 num buf i = .done b k := by
  intro fuel
  induction fuel with
  | zero =>
    intro fuel1 num buf i b k _ h
    simp only [digit_loop] at h
    split at h
    · exact absurd h (by simp)
    · next hn => cases fuel1 <;> simpa [digit_loop, hn] using h
  | succ f ih =>
    intro fuel1 num buf i b k hle h
    obtain ⟨g, rfl⟩ : ∃ g, fuel1 = g + 1 := ⟨fuel1 - 1, by omega⟩
    simp only [digit_loop] at h ⊢
    split
    · next hn =>
      simp only [hn, if_true] at h
      split
      · next hi =>
        simp only [hi, if_true] at h
        exact ih g _ _ _ _ _ (by omega) h
      · next hi => simp [hi] at h
    · next hn => simpa [hn] using h

/-- Digits and printing for a positive value held in `int num`: the tail of
`uart_put_int` after the sign has been dealt with. -/
theorem digits_then_print (n : Nat) (hn : n < 2 ^ 31) (buf0 : List Nat) (hb : buf0.length = 12)
    (m : Machine) (hdev : EventuallyReady m.status) :
    ∃ F buf1 i m1, (∀ fuel, F ≤ fuel → digit_loop fuel (n : Int) buf0 0 = .done buf1 i ∧
        print_loop fuel buf1 i m = .returned m1) ∧
      m1.tx = m.tx ++ (Nat.digits 10 n).reverse.map (fun d => 48 + d) := by
  have hlen := digits_length_le_ten n hn
  obtain ⟨buf1, h1, h2, h3⟩ := digit_loop_digits n 10 buf0 0 hlen (by omega)
  obtain ⟨F, m1, p1, _, p3⟩ := print_loop_ready buf1 (0 + (Nat.digits 10 n).length) m
    (by omega) hdev
  refine ⟨max 10 F, buf1, 0 + (Nat.digits 10 n).length, m1, fun fuel hf => ⟨?_, ?_⟩, ?_⟩
  · exact digit_loop_more_fuel 10 fuel _ _ _ _ _ (le_trans (le_max_left _ _) hf) h1
  · exact p1 fuel (le_trans (le_max_right _ _) hf)
  · rw [p3, h3]; simp [List.map_reverse]

/-- For every `int` other than the minimum, and a device that becomes ready,
`uart_put_int` returns without storing outside `buf` and has transmitted the
canonical decimal representation of `num`. -/
theorem uart_put_int_decimal (num : Int) (hlo : -2 ^ 31 < num) (hhi : num < 2 ^ 31)
    (buf0 : List Nat) (hb : buf0.length = 12) (m : Machine) (hdev : EventuallyReady m.status) :
    ∃ F m1, (∀ fuel, F ≤ fuel → uart_put_int fuel num buf0 m = some (.returned m1)) ∧
      m1.tx = m.tx ++ canonical_decimal num := by
  rcases lt_trichotomy num 0 with hneg | hzero | hpos
  · -- negative: '-' then the digits of -num
    obtain ⟨n, hn⟩ : ∃ n : Nat, -num = (n : Int) := ⟨(-num).toNat, by omega⟩
    have hnat : num.natAbs = n := by omega
    have hw : wrap_int (-num) = (n : Int) := by
      rw [wrap_int_of_range _ (by omega) (by omega), hn]
    obtain ⟨k, hk⟩ := uart_putc_ready 45 m hdev
    obtain ⟨F, buf1, i, m1, h1, h2⟩ := digits_then_print n (by omega) buf0 hb
      (txStore 45 (polled m (k + 1))) hdev
    refine ⟨max (k + 1) F, m1, fun fuel hf => ?_, ?_⟩
    · obtain ⟨d1, d2⟩ := h1 fuel (le_trans (le_max_right _ _) hf)
      have hk1 := hk fuel (by have := le_max_left (k + 1) F; omega)
      simp only [uart_put_int, ne_of_lt hneg, if_false, hneg, if_true, hw, d1, decide_True, hk1, d2]
    · rw [h2, txStore_polled_tx]
      simp [canonical_decimal, ne_of_lt hneg, hneg, hnat]
  · subst hzero
    obtain ⟨k, hk⟩ := uart_putc_ready 48 m hdev
    refine ⟨k + 1, txStore 48 (polled m (k + 1)), fun fuel hf => ?_, ?_⟩
    · simp only [uart_put_int, if_true, hk fuel (by omega)]
    · rw [txStore_polled_tx]; simp [canonical_decimal]
  · obtain ⟨n, hn⟩ : ∃ n : Nat, num = (n : Int) := ⟨num.toNat, by omega⟩
    have hnat : num.natAbs = n := by omega
    obtain ⟨F, buf1, i, m1, h1, h2⟩ := digits_then_print n (by omega) buf0 hb m hdev
    have hnn : ¬ num < 0 := by omega
    refine ⟨F, m1, fun fuel hf => ?_, ?_⟩
    · obtain ⟨d1, d2⟩ := h1 fuel hf
      rw [← hn] at d1
      simp only [uart_put_int, ne_of_gt hpos, if_false, hnn, d1, decide_False, d2]
      simp [d2]
    · rw [h2]
      simp [canonical_decimal, ne_of_gt hpos, hnn, hnat]

/-- C10 (failing input): at `num = INT_MIN = -2147483648` the negation wraps back
to `INT_MIN`, the digit loop is skipped, and `uart_put_int` transmits the single
byte '-' instead of the eleven bytes of "-2147483648". -/
theorem uart_put_int_int_min :
    wrap_int (-(-2147483648)) = -2147483648 ∧
    (∃ m1, uart_put_int 1 (-2147483648) buf12 (machineAt 0) = some (.returned m1) ∧
      m1.tx = [45]) ∧
    canonical_decimal (-2147483648) = [45, 50, 49, 52, 55, 52, 56, 51, 54, 52, 56] := by
  refine ⟨by decide, ⟨_, rfl, by decide⟩, ?_⟩
  simp [canonical_decimal]

/-! ## The lock -/

theorem inv_init : Inv World.init := by
  constructor <;> simp [World.init, holds, owner, alternates, entries, releases]

theorem alternates_acq (i : Nat) (log : List Obs) (h : alternates log = true)
    (ho : owner log = none) : alternates (.acq i :: log) = true := by
  cases log with
  | nil => rfl
  | cons o rest =>
    cases o with
    | acq j => simp [owner] at ho
    | rel j => simpa [alternates] using h

theorem alternates_rel (i : Nat) (log : List Obs) (h : alternates log = true)
    (ho : owner log = some i) : alternates (.rel i :: log) = true := by
  cases log with
  | nil => simp [owner] at ho
  | cons o rest =>
    cases o with
    | acq j =>
      simp [owner] at ho
      subst ho
      simpa [alternates] using h
    | rel j => simp [owner] at ho

/-- A step that writes neither the lock word nor the log and keeps the context
on the same side of the lock. -/
theorem inv_move (s : World) (i : Nat) (l : Local) (c : Nat) (out : List Nat) (h : Inv s)
    (hh : holds l.pc = holds (s.ctx i).pc)
    (hsc : l.resv = true → l.pc = .sc → s.mutex = 0)
    (hchk : ∀ t, l.resv = true → l.pc = .chk t → s.mutex = t)
    (hcnt : owner s.log = some i →
      c = (releases s.log + (if bumped l.pc then 1 else 0)) % 2 ^ 32)
    (hfree : owner s.log ≠ some i → c = s.shared_counter)
    (hpend : ∀ v, l.pc = .incWrite v → v = c) :
    Inv { s.move i l with shared_counter := c, tx := out } := by
  have hown : ∀ j, j ≠ i → owner s.log = some j → owner s.log ≠ some i := by
    intro j hj h1 h2; rw [h1] at h2; exact hj (Option.some.inj h2)
  constructor
  · intro j
    by_cases hj : j = i
    · subst hj; simpa [World.move, hh] using h.owner_iff j
    · simpa [World.move, hj] using h.owner_iff j
  · simpa [World.move] using h.mutex_val
  · intro j
    by_cases hj : j = i
    · subst hj; simpa [World.move] using hsc
    · simpa [World.move, hj] using h.resv_sc j
  · intro j t
    by_cases hj : j = i
    · subst hj; simpa [World.move] using hchk t
    · simpa [World.move, hj] using h.resv_chk j t
  · simpa [World.move] using h.alt
  · simpa [World.move] using h.count
  · intro j
    by_cases hj : j = i
    · subst hj; simpa [World.move] using hcnt
    · intro ho
      have := h.counter j ho
      simp only [World.move, hj, if_false]
      rw [hfree (hown j hj ho)]; exact this
  · intro ho
    simp only [World.move] at ho ⊢
    rw [hfree (by rw [ho]; simp)]
    exact h.counter_free ho
  · intro j v
    by_cases hj : j = i
    · subst hj; simpa [World.move] using hpend v
    · intro hp
      simp only [World.move, hj, if_false] at hp ⊢
      have hjh : holds (s.ctx j).pc = true := by rw [hp]; rfl
      have ho := (h.owner_iff j).1 hjh
      rw [hfree (hown j hj ho)]
      exact h.pending j v hp

theorem owner_none_of_mutex_zero (s : World) (h : Inv s) (h0 : s.mutex = 0) :
    owner s.log = none := by
  have := h.mutex_val
  rw [h0] at this
  cases ho : owner s.log with
  | none => rfl
  | some k => rw [ho] at this; simp at this

/-- A successful `sc.w` by a context whose reservation is valid. -/
theorem inv_acquire (s : World) (i : Nat) (h : Inv s) (hpc : (s.ctx i).pc = .sc)
    (hr : (s.ctx i).resv = true) : Inv (s.storeMutex i 1 (.cond 0) (.acq i)) := by
  have hnone := owner_none_of_mutex_zero s h (h.resv_sc i hr hpc)
  have hfree : ∀ j, holds (s.ctx j).pc = false := by
    intro j
    cases hj : holds (s.ctx j).pc with
    | false => rfl
    | true => have := (h.owner_iff j).1 hj; rw [hnone] at this; simp at this
  constructor
  · intro j
    by_cases hj : j = i
    · subst hj; simp [World.storeMutex, holds, owner]
    · have : ¬ i = j := fun e => hj e.symm
      simp [World.storeMutex, hj, owner, hfree j, this]
  · simp [World.storeMutex, owner]
  · intro j
    by_cases hj : j = i
    · subst hj; simp [World.storeMutex]
    · simp [World.storeMutex, hj]
  · intro j t
    by_cases hj : j = i
    · subst hj; simp [World.storeMutex]
    · simp [World.storeMutex, hj]
  · exact alternates_acq i s.log h.alt hnone
  · have := h.count
    rw [hnone] at this
    simp [World.storeMutex, owner, entries, releases, this]
  · intro j ho
    have hj : j = i := by
      simp only [World.storeMutex, owner] at ho
      exact (Option.some.inj ho).symm
    subst hj
    simpa [World.storeMutex, bumped, releases] using h.counter_free hnone
  · intro ho; simp [World.storeMutex, owner] at ho
  · intro j v
    by_cases hj : j = i
    · subst hj; simp [World.storeMutex]
    · simpa [World.storeMutex, hj] using h.pending j v

/-- The unlock store by the context at `mutex_unlock`. -/
theorem inv_release (s : World) (i : Nat) (h : Inv s) (hpc : (s.ctx i).pc = .unlock) :
    Inv (s.storeMutex i (mutex_unlock s.mutex) .leave (.rel i)) := by
  have hown : owner s.log = some i := (h.owner_iff i).1 (by rw [hpc]; rfl)
  constructor
  · intro j
    by_cases hj : j = i
    · subst hj; simp [World.storeMutex, holds, owner]
    · have := h.owner_iff j
      rw [hown] at this
      have hne : ¬ (some i = some j) := fun e => hj (Option.some.inj e).symm
      simp only [hne, iff_false] at this
      simpa [World.storeMutex, hj, owner] using this
  · simp [World.storeMutex, owner, mutex_unlock]
  · intro j
    by_cases hj : j = i
    · subst hj; simp [World.storeMutex]
    · simp [World.storeMutex, hj]
  · intro j t
    by_cases hj : j = i
    · subst hj; simp [World.storeMutex]
    · simp [World.storeMutex, hj]
  · exact alternates_rel i s.log h.alt hown
  · have := h.count
    rw [hown] at this
    simp [World.storeMutex, owner, entries, releases, this]
  · intro j ho; simp [World.storeMutex, owner] at ho
  · intro _
    have := h.counter i hown
    rw [hpc] at this
    simpa [World.storeMutex, bumped, releases] using this
  · intro j v
    by_cases hj : j = i
    · subst hj; simp [World.storeMutex]
    · simpa [World.storeMutex, hj] using h.pending j v

theorem holds_cond (t : Nat) : holds (.cond t) = decide (t = 0) := by
  cases t <;> simp [holds]

/-- A step outside the critical section that stores nothing. -/
theorem inv_move_out (s : World) (i : Nat) (l : Local) (out : List Nat) (h : Inv s)
    (h0 : holds (s.ctx i).pc = false) (h1 : holds l.pc = false)
    (hsc : l.resv = true → l.pc = .sc → s.mutex = 0)
    (hchk : ∀ t, l.resv = true → l.pc = .chk t → s.mutex = t) :
    Inv { s.move i l with tx := out } := by
  have hno : owner s.log ≠ some i := by
    intro ho
    have := (h.owner_iff i).2 ho
    rw [h0] at this; simp at this
  refine inv_move s i l s.shared_counter out h (by rw [h0, h1]) hsc hchk
    (fun ho => absurd ho hno) (fun _ => rfl) ?_
  intro v hv
  rw [hv] at h1; simp [holds] at h1

/-- A step inside the critical section. -/
theorem inv_move_in (s : World) (i : Nat) (l : Local) (c : Nat) (out : List Nat) (h : Inv s)
    (h0 : holds (s.ctx i).pc = true) (h1 : holds l.pc = true)
    (hcnt : c = (releases s.log + (if bumped l.pc then 1 else 0)) % 2 ^ 32)
    (hpend : ∀ v, l.pc = .incWrite v → v = c) :
    Inv { s.move i l with shared_counter := c, tx := out } := by
  have ho := (h.owner_iff i).1 h0
  refine inv_move s i l c out h (by rw [h0, h1]) ?_ ?_ (fun _ => hcnt)
    (fun hne => absurd ho hne) hpend
  · intro _ hp; rw [hp] at h1; simp [holds] at h1
  · intro t _ hp; rw [hp] at h1; simp [holds] at h1

theorem inv_thread_step (s : World) (i : Nat) (e : Event) (h : Inv s) : Inv (thread_step s i e) := by
  have hcounter : holds (s.ctx i).pc = true →
      s.shared_counter = (releases s.log + (if bumped (s.ctx i).pc then 1 else 0)) % 2 ^ 32 :=
    fun hh => h.counter i ((h.owner_iff i).1 hh)
  cases hpc : (s.ctx i).pc with
  | idle =>
    simp only [thread_step, hpc]
    refine inv_move_out s i _ s.tx h ?_ ?_ ?_ ?_
    · rw [hpc]; rfl
    · rfl
    · simp
    · simp
  | lr =>
    simp only [thread_step, hpc]
    refine inv_move_out s i _ s.tx h ?_ ?_ ?_ ?_
    · rw [hpc]; rfl
    · rfl
    · simp
    · simp
  | chk tmp =>
    simp only [thread_step, hpc]
    by_cases ht : tmp = 0
    · subst ht
      simp only [ne_eq, not_true_eq_false, if_false]
      refine inv_move_out s i _ s.tx h ?_ ?_ ?_ ?_
      · rw [hpc]; rfl
      · rfl
      · intro hr _
        exact h.resv_chk i 0 hr hpc
      · simp
    · simp only [ne_eq, ht, not_false_eq_true, if_true]
      refine inv_move_out s i _ s.tx h ?_ ?_ ?_ ?_
      · rw [hpc]; rfl
      · simp [holds_cond, ht]
      · simp
      · simp
  | sc =>
    simp only [thread_step, hpc]
    by_cases hs : ((s.ctx i).resv && e.hw) = true
    · simp only [hs, if_true]
      exact inv_acquire s i h hpc (by simp at hs; exact hs.1)
    · simp only [hs]
      refine inv_move_out s i _ s.tx h ?_ ?_ ?_ ?_
      · rw [hpc]; rfl
      · simp [holds_cond]
      · simp
      · simp
  | cond tmp =>
    simp only [thread_step, hpc]
    by_cases ht : tmp = 0
    · subst ht
      simp only [ne_eq, not_true_eq_false, if_false]
      have hh : holds (s.ctx i).pc = true := by rw [hpc]; rfl
      have hc := hcounter hh
      rw [hpc] at hc
      refine inv_move_in s i _ s.shared_counter s.tx h hh ?_ ?_ ?_
      · rfl
      · simpa [bumped] using hc
      · simp
    · simp only [ne_eq, ht, not_false_eq_true, if_true]
      refine inv_move_out s i _ s.tx h ?_ ?_ ?_ ?_
      · rw [hpc]; simp [holds_cond, ht]
      · rfl
      · simp
      · simp
  | enter =>
    simp only [thread_step, hpc]
    have hh : holds (s.ctx i).pc = true := by rw [hpc]; rfl
    have hc := hcounter hh
    rw [hpc] at hc
    refine inv_move_in s i _ s.shared_counter _ h hh ?_ ?_ ?_
    · rfl
    · simpa [bumped] using hc
    · simp
  | incRead =>
    simp only [thread_step, hpc]
    have hh : holds (s.ctx i).pc = true := by rw [hpc]; rfl
    have hc := hcounter hh
    rw [hpc] at hc
    refine inv_move_in s i _ s.shared_counter s.tx h hh ?_ ?_ ?_
    · rfl
    · simpa [bumped] using hc
    · simp
  | incWrite v =>
    simp only [thread_step, hpc]
    have hh : holds (s.ctx i).pc = true := by rw [hpc]; rfl
    have hc := hcounter hh
    rw [hpc] at hc
    have hv := h.pending i v hpc
    refine inv_move_in s i _ ((v + 1) % 2 ^ 32) s.tx h hh ?_ ?_ ?_
    · rfl
    · simp only [bumped, if_true] at hc ⊢
      simp only [Bool.false_eq_true, if_false, Nat.add_zero] at hc
      rw [hv, hc]
      omega
    · simp
  | putsCounter =>
    simp only [thread_step, hpc]
    have hh : holds (s.ctx i).pc = true := by rw [hpc]; rfl
    have hc := hcounter hh
    rw [hpc] at hc
    refine inv_move_in s i _ s.shared_counter _ h hh ?_ ?_ ?_
    · rfl
    · simpa [bumped] using hc
    · simp
  | putcCounter =>
    simp only [thread_step, hpc]
    have hh : holds (s.ctx i).pc = true := by rw [hpc]; rfl
    have hc := hcounter hh
    rw [hpc] at hc
    refine inv_move_in s i _ s.shared_counter _ h hh ?_ ?_ ?_
    · rfl
    · simpa [bumped] using hc
    · simp
  | putcNl =>
    simp only [thread_step, hpc]
    have hh : holds (s.ctx i).pc = true := by rw [hpc]; rfl
    have hc := hcounter hh
    rw [hpc] at hc
    refine inv_move_in s i _ s.shared_counter _ h hh ?_ ?_ ?_
    · rfl
    · simpa [bumped] using hc
    · simp
  | unlock =>
    simp only [thread_step, hpc]
    exact inv_release s i h hpc
  | leave =>
    simp only [thread_step, hpc]
    refine inv_move_out s i _ _ h ?_ ?_ ?_ ?_
    · rw [hpc]; rfl
    · rfl
    · simp
    · simp

theorem inv_step (N : Nat) (s : World) (e : Event) (h : Inv s) : Inv (step N s e) := by
  unfold step
  split
  · exact inv_thread_step s e.who e h
  · exact h

theorem inv_run (N : Nat) (es : List Event) :
    ∀ s, Inv s → Inv (run N s es) := by
  induction es with
  | nil => intro s h; exact h
  | cons e es ih => intro s h; exact ih _ (inv_step N s e h)

theorem thread_step_pc_other (s : World) (i j : Nat) (e : Event) (hj : j ≠ i) :
    ((thread_step s i e).ctx j).pc = (s.ctx j).pc := by
  cases hpc : (s.ctx i).pc <;> simp only [thread_step, hpc, World.move, World.storeMutex] <;>
    (try split_ifs) <;> first | rfl | contradiction | simp [hj]

theorem run_pc_outside (N : Nat) (j : Nat) (hj : N ≤ j) (es : List Event) :
    ∀ s, ((run N s es).ctx j).pc = (s.ctx j).pc := by
  induction es with
  | nil => intro s; rfl
  | cons e es ih =>
    intro s
    show ((run N (step N s e) es).ctx j).pc = _
    rw [ih]
    unfold step
    split
    · next hlt => exact thread_step_pc_other s e.who j e (by omega)
    · rfl

/-- The iterations up to and including the first winning one are what
`mutex_lock` executes before it returns. -/
theorem mutex_lock_returns_iff :
    ∀ (as : List Attempt) (s : LockState) (r : Int × LockState),
      mutex_lock as s = some r ↔
        ∃ pre a post, as = pre ++ a :: post ∧ (∀ x ∈ pre, x.wins = false) ∧ a.wins = true ∧
          r = (0, { word := 1, ops := s.ops ++ (pre ++ [a]).flatMap attemptOps }) := by
  intro as
  induction as with
  | nil =>
    intro s r
    simp [mutex_lock]
  | cons a rest ih =>
    intro s r
    by_cases hl : a.lr = 0
    · by_cases hc : a.sc = 0
      · -- this iteration wins
        have hw : a.wins = true := by simp [Attempt.wins, hl, hc]
        simp only [mutex_lock, hl, hc, ne_eq, not_true_eq_false, if_false, if_true]
        constructor
        · intro h
          refine ⟨[], a, rest, rfl, by simp, hw, ?_⟩
          rw [← Option.some.inj h]
          simp [attemptOps, hl, hc]
        · rintro ⟨pre, a1, post, hsplit, hpre, _, hr⟩
          cases pre with
          | nil =>
            simp only [List.nil_append, List.cons.injEq] at hsplit
            obtain ⟨rfl, _⟩ := hsplit
            rw [hr]
            simp [attemptOps, hl, hc]
          | cons p pre1 =>
            simp only [List.cons_append, List.cons.injEq] at hsplit
            obtain ⟨rfl, _⟩ := hsplit
            have := hpre a (by simp)
            rw [hw] at this
            exact absurd this (by simp)
      · -- sc.w fails: next iteration
        have hw : a.wins = false := by simp [Attempt.wins, hc]
        simp only [mutex_lock, hl, hc, ne_eq, not_true_eq_false, not_false_eq_true, if_false,
          if_true]
        rw [ih]
        constructor
        · rintro ⟨pre, a1, post, hsplit, hpre, hwin, hr⟩
          refine ⟨a :: pre, a1, post, by simp [hsplit], ?_, hwin, ?_⟩
          · intro x hx
            simp only [List.mem_cons] at hx
            rcases hx with rfl | hx
            · exact hw
            · exact hpre x hx
          · rw [hr]
            simp [attemptOps, hl, List.flatMap_append]
        · rintro ⟨pre, a1, post, hsplit, hpre, hwin, hr⟩
          cases pre with
          | nil =>
            simp only [List.nil_append, List.cons.injEq] at hsplit
            obtain ⟨rfl, _⟩ := hsplit
            rw [hw] at hwin
            exact absurd hwin (by simp)
          | cons p pre1 =>
            simp only [List.cons_append, List.cons.injEq] at hsplit
            obtain ⟨rfl, hrest⟩ := hsplit
            refine ⟨pre1, a1, post, hrest, fun x hx => hpre x (by simp [hx]), hwin, ?_⟩
            rw [hr]
            simp [attemptOps, hl, List.flatMap_append]
    · -- the word is taken: `continue`
      have hw : a.wins = false := by simp [Attempt.wins, hl]
      simp only [mutex_lock, hl, ne_eq, not_false_eq_true, if_true]
      rw [ih]
      constructor
      · rintro ⟨pre, a1, post, hsplit, hpre, hwin, hr⟩
        refine ⟨a :: pre, a1, post, by simp [hsplit], ?_, hwin, ?_⟩
        · intro x hx
          simp only [List.mem_cons] at hx
          rcases hx with rfl | hx
          · exact hw
          · exact hpre x hx
        · rw [hr]
          simp [attemptOps, hl, List.flatMap_append]
      · rintro ⟨pre, a1, post, hsplit, hpre, hwin, hr⟩
        cases pre with
        | nil =>
          simp only [List.nil_append, List.cons.injEq] at hsplit
          obtain ⟨rfl, _⟩ := hsplit
          rw [hw] at hwin
          exact absurd hwin (by simp)
        | cons p pre1 =>
          simp only [List.cons_append, List.cons.injEq] at hsplit
          obtain ⟨rfl, hrest⟩ := hsplit
          refine ⟨pre1, a1, post, hrest, fun x hx => hpre x (by simp [hx]), hwin, ?_⟩
          rw [hr]
          simp [attemptOps, hl, List.flatMap_append]

/-- C1: in every state reachable from `mutex = 0` by any interleaving of the
steps of any number `N` of contexts (LR, test, SC, loop condition, critical
section, unlock), at most one context holds the lock, and in the log of
successful `sc.w` events and unlock stores the two alternate, each unlock being
by the context that acquired last: no two successful SC events occur without an
unlock between them. -/
theorem mutual_exclusion (N : Nat) (es : List Event) :
    (∀ i j, holds ((run N World.init es).ctx i).pc = true →
      holds ((run N World.init es).ctx j).pc = true → i = j) ∧
    alternates (run N World.init es).log = true := by
  have h := inv_run N es World.init inv_init
  refine ⟨fun i j hi hj => ?_, h.alt⟩
  have h1 := (h.owner_iff i).1 hi
  have h2 := (h.owner_iff j).1 hj
  rw [h1] at h2
  exact Option.some.inj h2

/-- The exclusion of C1 in a race of two contexts for the free lock: context 0
acquires it, the `sc.w` of context 1 fails. -/
theorem mutual_exclusion_race :
    ((run 2 World.init raceSchedule).ctx 0).pc = .cond 0 ∧
    ((run 2 World.init raceSchedule).ctx 1).pc = .cond 1 ∧
    (run 2 World.init raceSchedule).log = [.acq 0] ∧
    (∀ i j, holds ((run 2 World.init raceSchedule).ctx i).pc = true →
      holds ((run 2 World.init raceSchedule).ctx j).pc = true → i = j) :=
  ⟨by decide, by decide, by decide, (mutual_exclusion 2 raceSchedule).1⟩

/-- C2: starting from `shared_counter = 0` and `mutex = 0`, in every state
reached by any interleaving of `N` contexts calling `thread1`/`thread2` in which
no context is inside the critical section, if `M < 2^32` critical-section
entries have been made then `shared_counter = M` and the lock word is 0. -/
theorem counter_counts_entries (N : Nat) (es : List Event) (M : Nat)
    (hdone : ∀ i, i < N → holds ((run N World.init es).ctx i).pc = false)
    (hM : entries (run N World.init es).log = M) (hlt : M < 2 ^ 32) :
    (run N World.init es).shared_counter = M ∧ (run N World.init es).mutex = 0 := by
  have h := inv_run N es World.init inv_init
  have hnone : owner (run N World.init es).log = none := by
    cases ho : owner (run N World.init es).log with
    | none => rfl
    | some i =>
      have hi := (h.owner_iff i).2 ho
      by_cases hlt : i < N
      · rw [hdone i hlt] at hi; simp at hi
      · rw [run_pc_outside N i (by omega) es World.init] at hi
        simp [World.init, holds] at hi
  have hc := h.counter_free hnone
  have hcount := h.count
  have hm := h.mutex_val
  rw [hnone] at hcount hm
  simp only [Option.isSome_none, Bool.false_eq_true, if_false, Nat.add_zero] at hcount hm
  rw [← hcount, hM] at hc
  rw [hc, Nat.mod_eq_of_lt hlt]
  exact ⟨rfl, hm⟩

set_option maxRecDepth 100000 in
/-- The count of C2 for the order of `main`: after `thread1(); thread2();
thread1(); thread2();` the counter is 4 and the lock word 0. -/
theorem counter_counts_entries_main :
    (run 1 World.init mainSchedule).shared_counter = 4 ∧
    (run 1 World.init mainSchedule).mutex = 0 :=
  counter_counts_entries 1 mainSchedule 4 (by decide) (by decide) (by decide)

set_option maxRecDepth 100000 in
/-- What the four calls of `main` print, run one after the other by context 0. -/
theorem main_console_output :
    (run 1 World.init mainSchedule).tx =
      bytes "T1: Enter critical section\nT1: Counter = 1\nT1: Exit critical section\n" ++
      bytes "T2: Enter critical section\nT2: Counter = 2\nT2: Exit critical section\n" ++
      bytes "T1: Enter critical section\nT1: Counter = 3\nT1: Exit critical section\n" ++
      bytes "T2: Enter critical section\nT2: Counter = 4\nT2: Exit critical section\n" := by
  decide

/-- C9: an iteration of `mutex_lock` whose `lr.w` loads a non-zero value executes
no `sc.w` and the loop restarts; an iteration whose `sc.w` fails restarts the
loop; `mutex_lock` returns exactly when some iteration, for the first time,
loads 0 and has its `sc.w` succeed, and then the word holds 1 and the value
returned is 0.  `mutex_unlock` stores 0 whatever the word held, so lock followed
by unlock on an unlocked, uncontended word leaves 0; in the interleaved system
the word is always 0 or 1. -/
theorem lock_unlock_postconditions :
    (∀ (a : Attempt) (rest : List Attempt) (s : LockState), a.lr ≠ 0 →
      mutex_lock (a :: rest) s = mutex_lock rest { s with ops := s.ops ++ [LockOp.lr a.lr] }) ∧
    (∀ (a : Attempt) (rest : List Attempt) (s : LockState), a.lr = 0 → a.sc ≠ 0 →
      mutex_lock (a :: rest) s
        = mutex_lock rest { s with ops := s.ops ++ [LockOp.lr a.lr, LockOp.sc a.sc] }) ∧
    (∀ (as : List Attempt) (s : LockState) (r : Int × LockState),
      mutex_lock as s = some r ↔
        ∃ pre a post, as = pre ++ a :: post ∧ (∀ x ∈ pre, x.wins = false) ∧ a.wins = true ∧
          r = (0, { word := 1, ops := s.ops ++ (pre ++ [a]).flatMap attemptOps })) ∧
    (∀ (as : List Attempt) (s : LockState) (r : Int × LockState),
      mutex_lock as s = some r → r.1 = 0 ∧ r.2.word = 1) ∧
    (∀ w, mutex_unlock w = 0) ∧
    (∀ ops, mutex_lock [⟨0, 0⟩] ⟨0, ops⟩ = some (0, ⟨1, ops ++ [LockOp.lr 0, LockOp.sc 0]⟩) ∧
      mutex_unlock 1 = 0) ∧
    (∀ N es, (run N World.init es).mutex = 0 ∨ (run N World.init es).mutex = 1) := by
  refine ⟨?_, ?_, mutex_lock_returns_iff, ?_, fun _ => rfl, ?_, ?_⟩
  · intro a rest s hl
    simp only [mutex_lock, hl, ne_eq, not_false_eq_true, if_true]
  · intro a rest s hl hc
    simp only [mutex_lock, hl, hc, ne_eq, not_true_eq_false, not_false_eq_true, if_false,
      if_true]
    simp
  · intro as s r h
    obtain ⟨_, _, _, _, _, _, hr⟩ := (mutex_lock_returns_iff as s r).1 h
    rw [hr]
    exact ⟨rfl, rfl⟩
  · intro ops
    exact ⟨by simp [mutex_lock], rfl⟩
  · intro N es
    have h := (inv_run N es World.init inv_init).mutex_val
    cases ho : (owner (run N World.init es).log).isSome with
    | false => left; rw [h, ho]; rfl
    | true => right; rw [h, ho]; rfl

/-- The restarts of C9 on the answers (1, -), (0, fail), (0, ok): the lock is
taken at the third iteration; without the third answer the loop is still
running. -/
theorem lock_unlock_postconditions_witness :
    mutex_lock [⟨1, 0⟩, ⟨0, 1⟩, ⟨0, 0⟩, ⟨7, 7⟩] ⟨0, []⟩
      = mutex_lock [⟨0, 1⟩, ⟨0, 0⟩, ⟨7, 7⟩] ⟨0, [LockOp.lr 1]⟩ ∧
    mutex_lock [⟨0, 1⟩, ⟨0, 0⟩, ⟨7, 7⟩] ⟨0, [LockOp.lr 1]⟩
      = mutex_lock [⟨0, 0⟩, ⟨7, 7⟩] ⟨0, [LockOp.lr 1, LockOp.lr 0, LockOp.sc 1]⟩ ∧
    mutex_lock [⟨1, 0⟩, ⟨0, 1⟩, ⟨0, 0⟩, ⟨7, 7⟩] ⟨0, []⟩
      = some (0, ⟨1, [LockOp.lr 1, LockOp.lr 0, LockOp.sc 1, LockOp.lr 0, LockOp.sc 0]⟩) ∧
    mutex_lock [⟨1, 0⟩, ⟨0, 1⟩] ⟨0, []⟩ = none :=
  ⟨lock_unlock_postconditions.1 ⟨1, 0⟩ _ ⟨0, []⟩ (by decide),
   lock_unlock_postconditions.2.1 ⟨0, 1⟩ _ ⟨0, [LockOp.lr 1]⟩ rfl (by decide),
   by decide, by decide⟩

end VsdRiscv
